import Mathlib

/-
  Verification of the manifest reconciliation and version-resolution engine of
  the flow-delete repository (src/flow-delete.js and src/flowDelete.js).

  The two scripts parse XML manifests into loosely shaped objects.  The shallow
  embedding below captures the shapes those objects can take after parsing:
  a `types` field may be absent, a single object, or a list of objects, and a
  `members` field may be a single scalar string or a list of strings.
-/

/-- A `members` field as parsed from XML: either a single scalar string
    (the serializer collapses singleton lists) or a list of strings. -/
inductive MVal where
  | scalar (s : String)
  | list (xs : List String)
  deriving DecidableEq, Repr

/-- View a members value as a list (scalar becomes a singleton). -/
def MVal.toList : MVal → List String
  | .scalar s => [s]
  | .list xs => xs

/-- One `<types>` entry of a manifest: a type name and its members. -/
structure TypeEntry where
  name : String
  members : MVal
  deriving DecidableEq, Repr

/-- The `types` field of a Package root: absent, one entry object, or a list. -/
inductive TypesField where
  | missing
  | one (t : TypeEntry)
  | many (ts : List TypeEntry)
  deriving DecidableEq, Repr

/-- The `Package` root object of a parsed manifest: its `types` field plus the
    remaining fields (xmlns attribute, version, ...) which the scripts never
    touch and which must survive a rewrite. -/
structure PackageNode where
  types : TypesField
  otherFields : List (String × String)
  deriving DecidableEq, Repr

/-- A parsed manifest document.  `packageRoot = none` models a document whose
    root is not `Package` (`manifest.Package` is `undefined` in the scripts). -/
structure Manifest where
  packageRoot : Option PackageNode
  otherTop : List (String × String)
  deriving DecidableEq, Repr

/-- Errors the scripts can raise while updating a manifest.
    `typeError` embeds the JavaScript `TypeError` thrown when a property is
    read off `undefined`.  `malformedManifestError` is modelled from the spec:
    the design document names a `MalformedManifestError` class, but no such
    class exists anywhere in the source. -/
inductive JsError where
  | typeError (msg : String)
  | malformedManifestError
  deriving DecidableEq, Repr

instance {ε α : Type} [DecidableEq ε] [DecidableEq α] : DecidableEq (Except ε α) := fun x y =>
  match x, y with
  | .ok a, .ok b =>
    if h : a = b then .isTrue (by rw [h]) else .isFalse (by intro hc; cases hc; exact h rfl)
  | .error a, .error b =>
    if h : a = b then .isTrue (by rw [h]) else .isFalse (by intro hc; cases hc; exact h rfl)
  | .ok _, .error _ => .isFalse (by intro hc; cases hc)
  | .error _, .ok _ => .isFalse (by intro hc; cases hc)

/-- The `TypeError` thrown by `manifest.Package.types` when `Package` is
    `undefined` (flow-delete.js line 118, flowDelete.js line 78). -/
def typeErrorTypesOfUndefined : JsError :=
  .typeError "cannot read properties of undefined reading types"

/-- The `TypeError` thrown by `element.name` inside `[undefined].find(...)`
    when flowDelete.js wraps a missing `types` field (flowDelete.js line 78). -/
def typeErrorNameOfUndefined : JsError :=
  .typeError "cannot read properties of undefined reading name"

/-- `Array.isArray(types) ? types : [types]` on a present-or-defaulted `types`
    field.  flow-delete.js first runs `types = types ?? []`, so the missing
    case becomes the empty list there. -/
def typesAsList : TypesField → List TypeEntry
  | .missing => []
  | .one t => [t]
  | .many ts => ts

/-- `types.find((element) => element.name === type)`. -/
def findTypeIn (types : List TypeEntry) (name : String) : Option TypeEntry :=
  types.find? (fun e => e.name == name)

/-- `[...new Set(xs)]`: deduplication keeping the first occurrence of each
    element, in order. -/
def jsSetDedup : List String → List String
  | [] => []
  | x :: xs => x :: (jsSetDedup xs).filter (fun y => y != x)

/-- The in-place mutation `element.members = ms` performed on the first entry
    of `types` whose name matches, as `Array.prototype.find` returns (an alias
    of) the first match. -/
def setMembersFirst (typeName : String) (ms : MVal) : List TypeEntry → List TypeEntry
  | [] => []
  | e :: es =>
    if e.name == typeName then ⟨e.name, ms⟩ :: es
    else e :: setMembersFirst typeName ms es

theorem jsSetDedup_mem (x : String) (l : List String) : x ∈ jsSetDedup l ↔ x ∈ l := by
  induction l with
  | nil => simp [jsSetDedup]
  | cons a l ih =>
    by_cases h : x = a
    · simp [jsSetDedup, h]
    · simp [jsSetDedup, List.mem_filter, ih, h, bne_iff_ne]

theorem jsSetDedup_nodup (l : List String) : (jsSetDedup l).Nodup := by
  induction l with
  | nil => simp [jsSetDedup]
  | cons a l ih =>
    refine List.Nodup.cons ?_ (List.Nodup.filter _ ih)
    intro hmem
    rcases List.mem_filter.mp hmem with ⟨_, hne⟩
    simp at hne

theorem jsSetDedup_eq_self (l : List String) (h : l.Nodup) : jsSetDedup l = l := by
  induction l with
  | nil => rfl
  | cons a l ih =>
    rcases List.nodup_cons.mp h with ⟨ha, hl⟩
    have hfilter : (jsSetDedup l).filter (fun y => y != a) = jsSetDedup l := by
      apply List.filter_eq_self.mpr
      intro y hy
      have : y ∈ l := (jsSetDedup_mem y l).mp hy
      simp only [bne_iff_ne, ne_eq, decide_eq_true_eq]
      intro he
      exact ha (he ▸ this)
    show a :: (jsSetDedup l).filter (fun y => y != a) = a :: l
    rw [hfilter, ih hl]

/-- Shared body of both scripts' `updateManifest` once `types` has been put
    into array form: find the entry whose `name` equals `type`; if found,
    replace that entry's members with `[...new Set(members)]`; otherwise push
    `{ members: members, name: type }` (note: pushed without deduplication).
    Finally `manifest.Package.types = types` stores the array form back. -/
def updateManifestCore (m : Manifest) (pkg : PackageNode) (types : List TypeEntry)
    (members : List String) (typeName : String) : Except JsError Manifest :=
  match types.find? (fun e => e.name == typeName) with
  | some _ =>
    Except.ok ⟨some ⟨TypesField.many (setMembersFirst typeName (MVal.list (jsSetDedup members)) types),
      pkg.otherFields⟩, m.otherTop⟩
  | none =>
    Except.ok ⟨some ⟨TypesField.many (types ++ [⟨typeName, MVal.list members⟩]),
      pkg.otherFields⟩, m.otherTop⟩

/-- `updateManifest` of src/flow-delete.js (lines 114-133).  It first runs
    `manifest.Package.types = manifest.Package.types ?? []`, so a missing
    `types` field becomes the empty array; reading `.types` off an absent
    `Package` root throws a `TypeError`. -/
def updateManifest (m : Manifest) (members : List String) (typeName : String) :
    Except JsError Manifest :=
  match m.packageRoot with
  | none => Except.error typeErrorTypesOfUndefined
  | some pkg => updateManifestCore m pkg (typesAsList pkg.types) members typeName

/-- `updateManifest` of src/flowDelete.js (lines 75-92).  No `?? []` default:
    a missing `types` field is wrapped as `[undefined]` and `find`'s callback
    then throws a `TypeError` reading `.name` of `undefined`. -/
def updateManifestCamel (m : Manifest) (members : List String) (typeName : String) :
    Except JsError Manifest :=
  match m.packageRoot with
  | none => Except.error typeErrorTypesOfUndefined
  | some pkg =>
    match pkg.types with
    | TypesField.missing => Except.error typeErrorNameOfUndefined
    | TypesField.one t => updateManifestCore m pkg [t] members typeName
    | TypesField.many ts => updateManifestCore m pkg ts members typeName

/-- The write performed by `updateManifest` at a given parsed manifest: the
    single `writeFile` call is the last statement of the function, so an
    exception raised earlier leaves the file untouched. -/
def updateManifestWrites (m : Manifest) (members : List String) (typeName : String) :
    List Manifest :=
  match updateManifest m members typeName with
  | Except.error _ => []
  | Except.ok m2 => [m2]

/-- `result.members = Array.isArray(result.members) ? result.members : [result.members]`. -/
def mvalNormalize : MVal → MVal
  | .scalar s => .list [s]
  | .list xs => .list xs

/-- Lookup returning the found entry with members forced into array form
    (flow-delete.js `filterType`, found branch). -/
def lookupNormalized (types : List TypeEntry) (name : String) : TypeEntry :=
  match findTypeIn types name with
  | some e => ⟨e.name, mvalNormalize e.members⟩
  | none => ⟨name, MVal.list []⟩

/-- Lookup returning the found entry exactly as stored
    (flowDelete.js `filterType`, found branch: no member normalization). -/
def lookupRaw (types : List TypeEntry) (name : String) : TypeEntry :=
  match findTypeIn types name with
  | some e => e
  | none => ⟨name, MVal.list []⟩

/-- `filterType` of src/flow-delete.js (lines 256-273): empty entry when the
    manifest has no `Package.types` or no matching entry; otherwise the match
    with its members normalized to an array. -/
def filterType (m : Manifest) (name : String) : TypeEntry :=
  match m.packageRoot with
  | none => ⟨name, MVal.list []⟩
  | some pkg =>
    match pkg.types with
    | TypesField.missing => ⟨name, MVal.list []⟩
    | TypesField.one t => lookupNormalized [t] name
    | TypesField.many ts => lookupNormalized ts name

/-- `filterType` of src/flowDelete.js (lines 218-233): same lookup, but the
    found entry is returned as-is, scalar members included. -/
def filterTypeCamel (m : Manifest) (name : String) : TypeEntry :=
  match m.packageRoot with
  | none => ⟨name, MVal.list []⟩
  | some pkg =>
    match pkg.types with
    | TypesField.missing => ⟨name, MVal.list []⟩
    | TypesField.one t => lookupRaw [t] name
    | TypesField.many ts => lookupRaw ts name

/-- JavaScript `String.prototype.split` with a one-character separator,
    acting on the character list of the string. -/
def jsSplitChar (sep : Char) : List Char → List (List Char)
  | [] => [[]]
  | c :: cs =>
    let rest := jsSplitChar sep cs
    if c = sep then [] :: rest else (c :: rest.headD []) :: rest.tail

/-- `flow.split('-').at(0)` (src/flow-delete.js line 52): the version-suffix
    strip applied to each destructive `Flow` member before further use. -/
def stripVersion (s : String) : String :=
  ⟨(jsSplitChar '-' s.data).headD []⟩

/-- Modelled from the spec: "split on the last separator and take the name
    component".  No such last-separator strip exists in the source; this
    definition follows the spec sentence so it can be compared with
    `stripVersion` above. -/
def stripVersionLastSep (s : String) : String :=
  let parts := jsSplitChar '-' s.data
  if parts.length ≤ 1 then s else ⟨List.intercalate ['-'] parts.dropLast⟩

/-- The deleted-flow list extracted by the src/flow-delete.js driver
    (lines 50-53): the destructive manifest's `Flow` members, each stripped. -/
def deletedFlowsOf (destructiveXml : Manifest) : List String :=
  ((filterType destructiveXml "Flow").members).toList.map stripVersion

/-- A record of the external query response:
    `{ Definition: { DeveloperName }, VersionNumber, Status }`. -/
structure FlowRecord where
  developerName : String
  versionNumber : Nat
  status : String
  deriving DecidableEq, Repr

/-- One entry of `response.output` after `filter(Boolean)` and the per-entry
    `JSON.parse` attempt: either a parsed payload (its `result.records`) or
    the raw string kept by the `catch` branch. -/
inductive SfChunk where
  | json (records : List FlowRecord)
  | raw (s : String)
  deriving DecidableEq, Repr

/-- `` `${version.Definition.DeveloperName}-${version.VersionNumber}` ``. -/
def formatDeletable (r : FlowRecord) : String :=
  r.developerName ++ "-" ++ toString r.versionNumber

/-- The SOQL query string built by `fetchFlowVersions` (lines 142-143):
    falsy names are dropped, the rest quoted and comma-joined. -/
def flowQuery (flows : List String) : String :=
  let formatted := String.intercalate "," ((flows.filter (fun f => f ≠ "")).map
    (fun f => "\x27" ++ f ++ "\x27"))
  "\"SELECT Id, Definition.DeveloperName, VersionNumber, Status FROM Flow WHERE Definition.DeveloperName IN (" ++ formatted ++ ")\""

/-- The external requests `fetchFlowVersions` issues: `spawnSync` is called
    unconditionally, exactly once, with the built query — there is no
    empty-input guard anywhere in the function (lines 140-162). -/
def fetchFlowVersionsRequests (flows : List String) : List String :=
  [flowQuery flows]

/-- The value `fetchFlowVersions` computes from the response chunks:
    `versions.at(0).result.records.map(...)`.  `none` models the `TypeError`
    raised when the first chunk is not a parsed payload (or there is none),
    since `.result.records` is then read off a string or `undefined`. -/
def fetchFlowVersions (flows : List String) (output : List SfChunk) :
    Option (List String) :=
  match output.head? with
  | some (SfChunk.json records) => some (records.map formatDeletable)
  | _ => none

/-- Which queries the src/flow-delete.js driver sends: `fetchFlowVersions` is
    only reached inside the `deletedFlows.length > 0` branch (lines 55-68). -/
def driverQueryRequests (destructiveXml : Manifest) : List String :=
  if (deletedFlowsOf destructiveXml).length > 0 then
    fetchFlowVersionsRequests (deletedFlowsOf destructiveXml)
  else []

/-- The consolidated member list the driver passes to `updateManifest` for the
    package manifest (line 57): existing `FlowDefinition` members followed by
    the deleted flows. -/
def consolidatedFlowDefinitions (manifest destructiveXml : Manifest) : List String :=
  ((filterType manifest "FlowDefinition").members).toList ++ deletedFlowsOf destructiveXml

/-- The `<?xml version encoding?>` declaration of a descriptor file. -/
structure XmlDecl where
  version : String
  encoding : String
  deriving DecidableEq, Repr

/-- The `FlowDefinition` node of a descriptor: the `activeVersionNumber`
    field the script writes, plus every other field and attribute. -/
structure FlowDefNode where
  activeVersionNumber : Nat
  otherFields : List (String × String)
  deriving DecidableEq, Repr

/-- A parsed `*.flowDefinition-meta.xml` descriptor document. -/
structure FlowDefDoc where
  xmlDecl : Option XmlDecl
  flowDefinition : FlowDefNode
  deriving DecidableEq, Repr

/-- `createFlowDefinition` of src/flow-delete.js (lines 98-106): the minimal
    inactive descriptor with the fixed metadata namespace. -/
def createFlowDefinition : FlowDefDoc :=
  ⟨some ⟨"1.0", "UTF-8"⟩, ⟨0, [("@_xmlns", "http://soap.sforce.com/2006/04/metadata")]⟩⟩

/-- The per-flow body of `deactivateFlows` (src/flow-delete.js lines 78-89):
    if the descriptor file exists, set `FlowDefinition.activeVersionNumber = 0`
    and keep everything else; otherwise create the minimal descriptor. -/
def deactivateFlowFile : Option FlowDefDoc → FlowDefDoc
  | some fd => ⟨fd.xmlDecl, ⟨0, fd.flowDefinition.otherFields⟩⟩
  | none => createFlowDefinition

/-- `deactivateFlows` (src/flow-delete.js lines 74-93): one descriptor write
    per flow name, against the local store of existing descriptor files. -/
def deactivateFlows (flows : List String) (store : String → Option FlowDefDoc) :
    List (String × FlowDefDoc) :=
  flows.map (fun f => (f, deactivateFlowFile (store f)))

theorem find?_setMembersFirst (t : String) (ms : MVal) (ts : List TypeEntry) (e : TypeEntry)
    (h : ts.find? (fun x => x.name == t) = some e) :
    (setMembersFirst t ms ts).find? (fun x => x.name == t) = some ⟨e.name, ms⟩ := by
  induction ts with
  | nil => simp [List.find?] at h
  | cons a as ih =>
    by_cases ha : a.name = t
    · have hb : (a.name == t) = true := by simp [ha]
      rw [List.find?] at h
      rw [hb] at h
      simp only [Option.some.injEq] at h
      subst h
      simp [setMembersFirst, hb, List.find?]
    · have hb : (a.name == t) = false := by simp [ha]
      rw [List.find?] at h
      rw [hb] at h
      simp [setMembersFirst, hb, List.find?, ih h]

theorem setMembersFirst_append_of_not_found (t : String) (ms : MVal) (ts l : List TypeEntry)
    (h : ts.find? (fun x => x.name == t) = none) :
    setMembersFirst t ms (ts ++ l) = ts ++ setMembersFirst t ms l := by
  induction ts with
  | nil => simp
  | cons a as ih =>
    rw [List.find?] at h
    cases hb : (a.name == t) with
    | true => rw [hb] at h; exact absurd h (by simp)
    | false =>
      rw [hb] at h
      simp [setMembersFirst, hb, ih h]

theorem setMembersFirst_idem (t : String) (ms : MVal) (ts : List TypeEntry) :
    setMembersFirst t ms (setMembersFirst t ms ts) = setMembersFirst t ms ts := by
  induction ts with
  | nil => rfl
  | cons a as ih =>
    cases hb : (a.name == t) with
    | true => simp [setMembersFirst, hb]
    | false => simp [setMembersFirst, hb, ih]

theorem setMembersFirst_eq_self (t : String) (ms : MVal) (ts : List TypeEntry) (e : TypeEntry)
    (hfind : ts.find? (fun x => x.name == t) = some e) (hms : e.members = ms) :
    setMembersFirst t ms ts = ts := by
  induction ts with
  | nil => simp [List.find?] at hfind
  | cons a as ih =>
    rw [List.find?] at hfind
    cases hb : (a.name == t) with
    | true =>
      rw [hb] at hfind
      simp only [Option.some.injEq] at hfind
      subst hfind
      simp [setMembersFirst, hb, ← hms]
    | false =>
      rw [hb] at hfind
      simp [setMembersFirst, hb, ih hfind]

theorem find?_append_of_none {α : Type} (p : α → Bool) (ts l : List α)
    (h : ts.find? p = none) : (ts ++ l).find? p = l.find? p := by
  induction ts with
  | nil => simp
  | cons a as ih =>
    rw [List.find?] at h
    cases hb : p a with
    | true => rw [hb] at h; exact absurd h (by simp)
    | false =>
      rw [hb] at h
      simp [List.find?, hb, ih h]

theorem jsSplitChar_headD (sep : Char) (cs : List Char) :
    (jsSplitChar sep cs).headD [] = cs.takeWhile (fun c => c != sep) := by
  induction cs with
  | nil => rfl
  | cons c cs ih =>
    by_cases h : c = sep
    · subst h
      simp [jsSplitChar, List.takeWhile_cons]
    · have hb : (c != sep) = true := by simp [h]
      have hstep : (jsSplitChar sep (c :: cs)).headD [] = c :: (jsSplitChar sep cs).headD [] := by
        simp only [jsSplitChar]
        rw [if_neg h]
        simp
      rw [hstep, ih]
      simp [List.takeWhile_cons, hb]

theorem filterType_of_core_found (m : Manifest) (pkg : PackageNode) (ts : List TypeEntry)
    (members : List String) (t : String) (e : TypeEntry)
    (he : ts.find? (fun x => x.name == t) = some e) :
    ∃ m2, updateManifestCore m pkg ts members t = Except.ok m2 ∧
      (filterType m2 t).members = MVal.list (jsSetDedup members) := by
  refine ⟨⟨some ⟨TypesField.many (setMembersFirst t (MVal.list (jsSetDedup members)) ts),
    pkg.otherFields⟩, m.otherTop⟩, ?_, ?_⟩
  · simp only [updateManifestCore, he]
  · simp only [filterType, lookupNormalized, findTypeIn,
      find?_setMembersFirst t (MVal.list (jsSetDedup members)) ts e he, mvalNormalize]

theorem filterType_of_core_append (m : Manifest) (pkg : PackageNode) (ts : List TypeEntry)
    (members : List String) (t : String)
    (hn : ts.find? (fun x => x.name == t) = none) :
    ∃ m2, updateManifestCore m pkg ts members t = Except.ok m2 ∧
      (filterType m2 t).members = MVal.list members := by
  refine ⟨⟨some ⟨TypesField.many (ts ++ [⟨t, MVal.list members⟩]), pkg.otherFields⟩,
    m.otherTop⟩, ?_, ?_⟩
  · simp only [updateManifestCore, hn]
  · have hfind : (ts ++ [(⟨t, MVal.list members⟩ : TypeEntry)]).find? (fun x => x.name == t)
        = some ⟨t, MVal.list members⟩ := by
      rw [find?_append_of_none _ ts _ hn]
      simp [List.find?]
    simp only [filterType, lookupNormalized, findTypeIn, hfind, mvalNormalize]

/-- Claim C1 (corrected): at a manifest whose `T` entry already holds member
    `"a"`, merging `["b"]` does not produce the deduplicated union
    `{"a", "b"}` — `updateManifest` replaces the members with `["b"]` alone,
    so the claimed membership equivalence fails at `"a"`. -/
theorem updateManifest_union_counterexample :
    updateManifest ⟨some ⟨TypesField.many [⟨"T", MVal.list ["a"]⟩], []⟩, []⟩ ["b"] "T"
      = Except.ok ⟨some ⟨TypesField.many [⟨"T", MVal.list ["b"]⟩], []⟩, []⟩ ∧
    ¬ (∀ x, x ∈ ((filterType ⟨some ⟨TypesField.many [⟨"T", MVal.list ["b"]⟩], []⟩, []⟩
          "T").members).toList ↔
        x ∈ ((filterType ⟨some ⟨TypesField.many [⟨"T", MVal.list ["a"]⟩], []⟩, []⟩
          "T").members).toList ∨ x ∈ ["b"]) := by
  constructor
  · decide
  · intro h
    have := (h "a").mpr (Or.inl (by decide))
    revert this
    decide

/-- Claim C1 (amended): when the target type entry already exists,
    `updateManifest` replaces its members with the deduplicated new member
    list alone, discarding the existing members; the union with the existing
    members happens in the driver, whose consolidated `FlowDefinition` list is
    exactly the concatenation of existing and deleted names. -/
theorem updateManifest_replaces_with_dedup_newMembers
    (m : Manifest) (pkg : PackageNode) (members : List String) (t : String) (e : TypeEntry)
    (hm : m.packageRoot = some pkg)
    (he : findTypeIn (typesAsList pkg.types) t = some e) :
    (∃ m2, updateManifest m members t = Except.ok m2 ∧
      (filterType m2 t).members = MVal.list (jsSetDedup members)) ∧
    (∀ pkgManifest destructiveXml x,
      x ∈ consolidatedFlowDefinitions pkgManifest destructiveXml ↔
        x ∈ ((filterType pkgManifest "FlowDefinition").members).toList ∨
          x ∈ deletedFlowsOf destructiveXml) := by
  constructor
  · simp only [updateManifest, hm]
    exact filterType_of_core_found m pkg (typesAsList pkg.types) members t e he
  · intro pm d x
    simp [consolidatedFlowDefinitions]

/-- Witness for the amended claim C1 at a concrete manifest. -/
theorem updateManifest_replaces_with_dedup_newMembers_witness :
    (∃ m2, updateManifest ⟨some ⟨TypesField.many [⟨"T", MVal.list ["a"]⟩], []⟩, []⟩
        ["b", "b"] "T" = Except.ok m2 ∧
      (filterType m2 "T").members = MVal.list (jsSetDedup ["b", "b"])) ∧
    (∀ pkgManifest destructiveXml x,
      x ∈ consolidatedFlowDefinitions pkgManifest destructiveXml ↔
        x ∈ ((filterType pkgManifest "FlowDefinition").members).toList ∨
          x ∈ deletedFlowsOf destructiveXml) :=
  updateManifest_replaces_with_dedup_newMembers
    ⟨some ⟨TypesField.many [⟨"T", MVal.list ["a"]⟩], []⟩, []⟩
    ⟨TypesField.many [⟨"T", MVal.list ["a"]⟩], []⟩ ["b", "b"] "T"
    ⟨"T", MVal.list ["a"]⟩ rfl (by decide)

/-- Claim C2 (corrected): the strip is not "split on the last separator" —
    for `"My-Flow-3"` the code keeps `"My"`, while a last-separator split
    would keep `"My-Flow"`. -/
theorem stripVersion_last_separator_counterexample :
    stripVersion "My-Flow-3" ≠ stripVersionLastSep "My-Flow-3" ∧
    stripVersion "My-Flow-3" = "My" ∧
    stripVersionLastSep "My-Flow-3" = "My-Flow" := by
  refine ⟨by decide, by decide, by decide⟩

/-- Claim C2 (amended): `flow.split('-').at(0)` keeps the prefix of the name
    before the FIRST separator (not the last); for names whose base contains
    no separator, such as `"MyFlow-3"`, this agrees with the spec and yields
    `"MyFlow"`. -/
theorem stripVersion_first_separator :
    (∀ s : String, stripVersion s = ⟨s.data.takeWhile (fun c => c != '-')⟩) ∧
    stripVersion "MyFlow-3" = "MyFlow" :=
  ⟨fun s => congrArg String.mk (jsSplitChar_headD '-' s.data), by decide⟩

/-- Claim C3 (confirmed): whenever the first response chunk is a parsed
    payload carrying the matching remote version records, `fetchFlowVersions`
    succeeds and returns exactly one `"{name}-{version}"` string per record —
    all records, with no filtering on status — and every output entry comes
    from some record, so a name with zero matching records contributes no
    entries and causes no error. -/
theorem fetchFlowVersions_surfaces_all_records
    (flows : List String) (output : List SfChunk) (records : List FlowRecord)
    (h : output.head? = some (SfChunk.json records)) :
    ∃ out, fetchFlowVersions flows output = some out ∧
      (∀ r, r ∈ records → formatDeletable r ∈ out) ∧
      (∀ s, s ∈ out → ∃ r, r ∈ records ∧ s = formatDeletable r) := by
  refine ⟨records.map formatDeletable, ?_, ?_, ?_⟩
  · simp only [fetchFlowVersions, h]
  · intro r hr
    exact List.mem_map_of_mem _ hr
  · intro s hs
    rcases List.mem_map.mp hs with ⟨r, hr, hr2⟩
    exact ⟨r, hr, hr2.symm⟩

/-- Witness for claim C3: a name with two records yields both deletable
    identifiers; a second queried name with no records adds nothing. -/
theorem fetchFlowVersions_surfaces_all_records_witness :
    ∃ out, fetchFlowVersions ["FlowB", "FlowC"]
        [SfChunk.json [⟨"FlowB", 1, "Obsolete"⟩, ⟨"FlowB", 2, "Active"⟩]] = some out ∧
      (∀ r, r ∈ ([⟨"FlowB", 1, "Obsolete"⟩, ⟨"FlowB", 2, "Active"⟩] : List FlowRecord) →
        formatDeletable r ∈ out) ∧
      (∀ s, s ∈ out → ∃ r, r ∈ ([⟨"FlowB", 1, "Obsolete"⟩, ⟨"FlowB", 2, "Active"⟩] :
        List FlowRecord) ∧ s = formatDeletable r) :=
  fetchFlowVersions_surfaces_all_records ["FlowB", "FlowC"] _ _ rfl

/-- Claim C4 (confirmed): for every flow name passed to `deactivateFlows`, a
    descriptor is written for it; when no local descriptor exists it is the
    minimal inactive descriptor, and when one exists its
    `activeVersionNumber` becomes `0` while the other fields of the
    `FlowDefinition` node and the XML declaration are unchanged. -/
theorem deactivateFlows_descriptor_states
    (flows : List String) (store : String → Option FlowDefDoc) (f : String) (hf : f ∈ flows) :
    (f, deactivateFlowFile (store f)) ∈ deactivateFlows flows store ∧
    (store f = none →
      deactivateFlowFile (store f) = createFlowDefinition ∧
      (deactivateFlowFile (store f)).flowDefinition.activeVersionNumber = 0) ∧
    (∀ fd, store f = some fd →
      (deactivateFlowFile (store f)).flowDefinition.activeVersionNumber = 0 ∧
      (deactivateFlowFile (store f)).flowDefinition.otherFields = fd.flowDefinition.otherFields ∧
      (deactivateFlowFile (store f)).xmlDecl = fd.xmlDecl) := by
  refine ⟨List.mem_map_of_mem _ hf, ?_, ?_⟩
  · intro h
    rw [h]
    exact ⟨rfl, rfl⟩
  · intro fd h
    rw [h]
    exact ⟨rfl, rfl, rfl⟩

/-- A concrete local descriptor store for the claim C4 witness: flow `"A"`
    has a descriptor (active version 5, one extra attribute), `"B"` has none. -/
def c4Store : String → Option FlowDefDoc :=
  fun n => if n = "A" then some ⟨some ⟨"1.0", "UTF-8"⟩, ⟨5, [("@_xmlns", "ns")]⟩⟩ else none

/-- Witness for claim C4 at the concrete store `c4Store`. -/
theorem deactivateFlows_descriptor_states_witness :
    (("A", deactivateFlowFile (c4Store "A")) ∈ deactivateFlows ["A", "B"] c4Store) ∧
    (c4Store "A" = none →
      deactivateFlowFile (c4Store "A") = createFlowDefinition ∧
      (deactivateFlowFile (c4Store "A")).flowDefinition.activeVersionNumber = 0) ∧
    (∀ fd, c4Store "A" = some fd →
      (deactivateFlowFile (c4Store "A")).flowDefinition.activeVersionNumber = 0 ∧
      (deactivateFlowFile (c4Store "A")).flowDefinition.otherFields
        = fd.flowDefinition.otherFields ∧
      (deactivateFlowFile (c4Store "A")).xmlDecl = fd.xmlDecl) :=
  deactivateFlows_descriptor_states ["A", "B"] c4Store "A" (by decide)

/-- Claim C5 (corrected): the append branch pushes `newMembers` without
    deduplication — merging `["a", "a"]` into a manifest with no `T` entry
    leaves a duplicated member list, so the no-duplicates invariant fails and
    the appended entry is not `dedupe(newMembers)`. -/
theorem updateManifest_append_duplicates_counterexample :
    updateManifest ⟨some ⟨TypesField.many [], []⟩, []⟩ ["a", "a"] "T"
      = Except.ok ⟨some ⟨TypesField.many [⟨"T", MVal.list ["a", "a"]⟩], []⟩, []⟩ ∧
    ¬ (["a", "a"] : List String).Nodup ∧
    MVal.list ["a", "a"] ≠ MVal.list (jsSetDedup ["a", "a"]) := by
  refine ⟨by decide, by decide, by decide⟩

/-- Claim C5 (amended): when the target entry exists, the merged members are
    `dedupe(newMembers)` and contain no duplicates; when it does not exist,
    the appended entry's members are `newMembers` exactly as given, so the
    no-duplicates invariant holds only if `newMembers` itself had none. -/
theorem updateManifest_members_dedup_amended
    (m : Manifest) (pkg : PackageNode) (members : List String) (t : String)
    (hm : m.packageRoot = some pkg) :
    (∀ e, findTypeIn (typesAsList pkg.types) t = some e →
      ∃ m2, updateManifest m members t = Except.ok m2 ∧
        (filterType m2 t).members = MVal.list (jsSetDedup members) ∧
        (jsSetDedup members).Nodup) ∧
    (findTypeIn (typesAsList pkg.types) t = none →
      ∃ m2, updateManifest m members t = Except.ok m2 ∧
        (filterType m2 t).members = MVal.list members) := by
  constructor
  · intro e he
    simp only [updateManifest, hm]
    rcases filterType_of_core_found m pkg (typesAsList pkg.types) members t e he with
      ⟨m2, h1, h2⟩
    exact ⟨m2, h1, h2, jsSetDedup_nodup members⟩
  · intro hn
    simp only [updateManifest, hm]
    exact filterType_of_core_append m pkg (typesAsList pkg.types) members t hn

/-- Witness for the amended claim C5: found branch at `FlowDefinition` with a
    duplicated input, append branch at a fresh type name. -/
theorem updateManifest_members_dedup_amended_witness :
    (∀ e, findTypeIn (typesAsList (⟨TypesField.many [⟨"FlowDefinition", MVal.list ["x"]⟩],
        []⟩ : PackageNode).types) "FlowDefinition" = some e →
      ∃ m2, updateManifest ⟨some ⟨TypesField.many [⟨"FlowDefinition", MVal.list ["x"]⟩], []⟩,
          []⟩ ["a", "a"] "FlowDefinition" = Except.ok m2 ∧
        (filterType m2 "FlowDefinition").members = MVal.list (jsSetDedup ["a", "a"]) ∧
        (jsSetDedup ["a", "a"]).Nodup) ∧
    (findTypeIn (typesAsList (⟨TypesField.many [⟨"FlowDefinition", MVal.list ["x"]⟩],
        []⟩ : PackageNode).types) "Flow" = none →
      ∃ m2, updateManifest ⟨some ⟨TypesField.many [⟨"FlowDefinition", MVal.list ["x"]⟩], []⟩,
          []⟩ ["a", "a"] "Flow" = Except.ok m2 ∧
        (filterType m2 "Flow").members = MVal.list ["a", "a"]) :=
  ⟨(updateManifest_members_dedup_amended
      ⟨some ⟨TypesField.many [⟨"FlowDefinition", MVal.list ["x"]⟩], []⟩, []⟩
      ⟨TypesField.many [⟨"FlowDefinition", MVal.list ["x"]⟩], []⟩ ["a", "a"]
      "FlowDefinition" rfl).1,
   (updateManifest_members_dedup_amended
      ⟨some ⟨TypesField.many [⟨"FlowDefinition", MVal.list ["x"]⟩], []⟩, []⟩
      ⟨TypesField.many [⟨"FlowDefinition", MVal.list ["x"]⟩], []⟩ ["a", "a"]
      "Flow" rfl).2⟩

/-- Claim C6 (corrected): `fetchFlowVersions` has no empty-input guard — on an
    empty name list it still issues exactly one query, whose `IN (...)` clause
    is empty. -/
theorem fetchFlowVersions_empty_input_counterexample :
    fetchFlowVersionsRequests ([] : List String) ≠ [] ∧
    fetchFlowVersionsRequests ([] : List String) = [flowQuery []] :=
  ⟨by decide, rfl⟩

/-- Claim C6 (amended): the empty-input short-circuit lives in the driver, not
    in `fetchFlowVersions`: when the stripped deleted-flow list is empty the
    driver issues no query at all, and otherwise it issues exactly one batched
    query for the whole list. -/
theorem driver_empty_flows_no_request (d : Manifest) :
    (deletedFlowsOf d = [] → driverQueryRequests d = []) ∧
    (deletedFlowsOf d ≠ [] → driverQueryRequests d = [flowQuery (deletedFlowsOf d)]) := by
  constructor
  · intro h
    simp [driverQueryRequests, h]
  · intro h
    have hlen : 0 < (deletedFlowsOf d).length := List.length_pos.mpr h
    simp [driverQueryRequests, fetchFlowVersionsRequests, hlen]

/-- Witness for the amended claim C6: a destructive manifest with no `Flow`
    type produces no query; one with a `Flow` member produces one query. -/
theorem driver_empty_flows_no_request_witness :
    driverQueryRequests ⟨none, []⟩ = [] ∧
    driverQueryRequests ⟨some ⟨TypesField.one ⟨"Flow", MVal.scalar "MyFlow-3"⟩, []⟩, []⟩
      = [flowQuery ["MyFlow"]] :=
  ⟨(driver_empty_flows_no_request ⟨none, []⟩).1 rfl,
   (driver_empty_flows_no_request
      ⟨some ⟨TypesField.one ⟨"Flow", MVal.scalar "MyFlow-3"⟩, []⟩, []⟩).2 (by decide)⟩

/-- `element = types.find(...)` succeeded somewhere along the update path:
    there is a `Package` root and its (array-normalized) types list has an
    entry of the given name. -/
def entryFound (m : Manifest) (t : String) : Bool :=
  match m.packageRoot with
  | none => false
  | some pkg => (findTypeIn (typesAsList pkg.types) t).isSome

theorem updateManifest_twice_of_found (m : Manifest) (pkg : PackageNode)
    (members : List String) (t : String) (e : TypeEntry)
    (hm : m.packageRoot = some pkg)
    (he : (typesAsList pkg.types).find? (fun x => x.name == t) = some e) :
    (updateManifest m members t).bind (fun m1 => updateManifest m1 members t)
      = updateManifest m members t := by
  have honce : updateManifest m members t
      = Except.ok ⟨some ⟨TypesField.many (setMembersFirst t (MVal.list (jsSetDedup members))
          (typesAsList pkg.types)), pkg.otherFields⟩, m.otherTop⟩ := by
    simp only [updateManifest, hm, updateManifestCore, he]
  rw [honce]
  show updateManifest ⟨some ⟨TypesField.many (setMembersFirst t (MVal.list (jsSetDedup members))
    (typesAsList pkg.types)), pkg.otherFields⟩, m.otherTop⟩ members t = _
  have hstep : typesAsList (TypesField.many (setMembersFirst t (MVal.list (jsSetDedup members))
      (typesAsList pkg.types))) = setMembersFirst t (MVal.list (jsSetDedup members))
      (typesAsList pkg.types) := rfl
  simp only [updateManifest, updateManifestCore, hstep,
    find?_setMembersFirst t (MVal.list (jsSetDedup members)) (typesAsList pkg.types) e he,
    setMembersFirst_idem]

theorem updateManifest_twice_of_append (m : Manifest) (pkg : PackageNode)
    (members : List String) (t : String)
    (hm : m.packageRoot = some pkg)
    (hn : (typesAsList pkg.types).find? (fun x => x.name == t) = none)
    (hd : members.Nodup) :
    (updateManifest m members t).bind (fun m1 => updateManifest m1 members t)
      = updateManifest m members t := by
  have honce : updateManifest m members t
      = Except.ok ⟨some ⟨TypesField.many (typesAsList pkg.types ++ [⟨t, MVal.list members⟩]),
          pkg.otherFields⟩, m.otherTop⟩ := by
    simp only [updateManifest, hm, updateManifestCore, hn]
  rw [honce]
  show updateManifest ⟨some ⟨TypesField.many (typesAsList pkg.types ++
    [⟨t, MVal.list members⟩]), pkg.otherFields⟩, m.otherTop⟩ members t = _
  have hfind : (typesAsList pkg.types ++ [(⟨t, MVal.list members⟩ : TypeEntry)]).find?
      (fun x => x.name == t) = some ⟨t, MVal.list members⟩ := by
    rw [find?_append_of_none _ _ _ hn]
    simp [List.find?]
  have hset : setMembersFirst t (MVal.list (jsSetDedup members))
      (typesAsList pkg.types ++ [⟨t, MVal.list members⟩])
      = typesAsList pkg.types ++ [⟨t, MVal.list members⟩] := by
    rw [setMembersFirst_append_of_not_found _ _ _ _ hn]
    simp [setMembersFirst, jsSetDedup_eq_self members hd]
  have hstep : typesAsList (TypesField.many (typesAsList pkg.types ++
      [⟨t, MVal.list members⟩])) = typesAsList pkg.types ++ [⟨t, MVal.list members⟩] := rfl
  simp only [updateManifest, updateManifestCore, hstep, hfind, hset]

/-- Claim C7 (amended): applying `updateManifest` twice with the same
    `newMembers` equals applying it once whenever the target entry already
    exists or `newMembers` has no duplicates (in the remaining case the first
    run appends the duplicated list and the second run dedupes it); and the
    operation is a no-op precisely in the sense that an existing `types` array
    whose matching entry already holds `dedupe(newMembers)` is returned
    unchanged — a mere subset relation between `newMembers` and the existing
    members is not enough, since the found branch overwrites rather than
    unions. -/
theorem updateManifest_idempotent_amended (m : Manifest) (members : List String) (t : String) :
    (entryFound m t = true ∨ members.Nodup →
      (updateManifest m members t).bind (fun m1 => updateManifest m1 members t)
        = updateManifest m members t) ∧
    (∀ pkg ts e, m.packageRoot = some pkg → pkg.types = TypesField.many ts →
      findTypeIn ts t = some e → e.members = MVal.list (jsSetDedup members) →
      updateManifest m members t = Except.ok m) := by
  constructor
  · intro h
    cases hm : m.packageRoot with
    | none => simp only [updateManifest, hm]; rfl
    | some pkg =>
      cases hfind : (typesAsList pkg.types).find? (fun x => x.name == t) with
      | some e => exact updateManifest_twice_of_found m pkg members t e hm hfind
      | none =>
        have hd : members.Nodup := by
          rcases h with h | h
          · exfalso
            rw [entryFound, hm] at h
            simp only [findTypeIn, hfind, Option.isSome_none] at h
            exact Bool.false_ne_true h
          · exact h
        exact updateManifest_twice_of_append m pkg members t hm hfind hd
  · intro pkg ts e hm ht he hmem
    obtain ⟨proot, otop⟩ := m
    obtain ⟨ptypes, pof⟩ := pkg
    simp only at hm ht
    subst hm
    subst ht
    have he2 : ts.find? (fun x => x.name == t) = some e := he
    have hset : setMembersFirst t (MVal.list (jsSetDedup members)) ts = ts :=
      setMembersFirst_eq_self t _ ts e he2 hmem
    simp only [updateManifest, updateManifestCore, typesAsList, he2, hset]

/-- Witness for the amended claim C7: on a manifest whose `T` entry holds
    `["a"]`, a second merge of `["a"]` changes nothing, and the merge is a
    no-op outright. -/
theorem updateManifest_idempotent_amended_witness :
    ((updateManifest ⟨some ⟨TypesField.many [⟨"T", MVal.list ["a"]⟩], []⟩, []⟩ ["a"] "T").bind
      (fun m1 => updateManifest m1 ["a"] "T")
      = updateManifest ⟨some ⟨TypesField.many [⟨"T", MVal.list ["a"]⟩], []⟩, []⟩ ["a"] "T") ∧
    updateManifest ⟨some ⟨TypesField.many [⟨"T", MVal.list ["a"]⟩], []⟩, []⟩ ["a"] "T"
      = Except.ok ⟨some ⟨TypesField.many [⟨"T", MVal.list ["a"]⟩], []⟩, []⟩ :=
  ⟨(updateManifest_idempotent_amended
      ⟨some ⟨TypesField.many [⟨"T", MVal.list ["a"]⟩], []⟩, []⟩ ["a"] "T").1
      (Or.inl (by decide)),
   (updateManifest_idempotent_amended
      ⟨some ⟨TypesField.many [⟨"T", MVal.list ["a"]⟩], []⟩, []⟩ ["a"] "T").2
      ⟨TypesField.many [⟨"T", MVal.list ["a"]⟩], []⟩ [⟨"T", MVal.list ["a"]⟩]
      ⟨"T", MVal.list ["a"]⟩ rfl rfl (by decide) (by decide)⟩

/-- Claim C8 (corrected): flowDelete.js's `filterType` does not normalize the
    found entry's members — a scalar member and the singleton list holding the
    same value give different results there. -/
theorem filterTypeCamel_scalar_counterexample :
    filterTypeCamel ⟨some ⟨TypesField.one ⟨"Flow", MVal.scalar "A"⟩, []⟩, []⟩ "Flow"
      ≠ filterTypeCamel ⟨some ⟨TypesField.one ⟨"Flow", MVal.list ["A"]⟩, []⟩, []⟩ "Flow" ∧
    filterTypeCamel ⟨some ⟨TypesField.one ⟨"Flow", MVal.scalar "A"⟩, []⟩, []⟩ "Flow"
      = ⟨"Flow", MVal.scalar "A"⟩ := by
  refine ⟨by decide, by decide⟩

/-- Claim C8 (amended): flow-delete.js's `filterType` returns the matching
    entry with members normalized to a list (so a scalar member and the
    singleton list holding the same value give identical results), and the
    empty entry whenever the `Package` root or its `types` field is absent or
    no entry matches; flowDelete.js's `filterType` does the same lookup but
    returns the found entry without normalizing its members. -/
theorem filterType_lookup_amended (m : Manifest) (name : String) :
    (m.packageRoot = none →
      filterType m name = ⟨name, MVal.list []⟩ ∧
      filterTypeCamel m name = ⟨name, MVal.list []⟩) ∧
    (∀ pkg, m.packageRoot = some pkg → pkg.types = TypesField.missing →
      filterType m name = ⟨name, MVal.list []⟩ ∧
      filterTypeCamel m name = ⟨name, MVal.list []⟩) ∧
    (∀ pkg, m.packageRoot = some pkg → findTypeIn (typesAsList pkg.types) name = none →
      filterType m name = ⟨name, MVal.list []⟩ ∧
      filterTypeCamel m name = ⟨name, MVal.list []⟩) ∧
    (∀ pkg e, m.packageRoot = some pkg → findTypeIn (typesAsList pkg.types) name = some e →
      filterType m name = ⟨e.name, mvalNormalize e.members⟩ ∧
      filterTypeCamel m name = e) ∧
    (∀ s, mvalNormalize (MVal.scalar s) = mvalNormalize (MVal.list [s])) := by
  obtain ⟨proot, otop⟩ := m
  refine ⟨?_, ?_, ?_, ?_, fun s => rfl⟩
  · intro h
    have h2 : proot = none := h
    subst h2
    exact ⟨rfl, rfl⟩
  · intro pkg hm ht
    obtain ⟨ptypes, pof⟩ := pkg
    have hm2 : proot = some ⟨ptypes, pof⟩ := hm
    subst hm2
    have ht2 : ptypes = TypesField.missing := ht
    subst ht2
    exact ⟨rfl, rfl⟩
  · intro pkg hm hn
    obtain ⟨ptypes, pof⟩ := pkg
    have hm2 : proot = some ⟨ptypes, pof⟩ := hm
    subst hm2
    cases ptypes with
    | missing => exact ⟨rfl, rfl⟩
    | one t =>
      have hn2 : findTypeIn [t] name = none := hn
      exact ⟨by simp only [filterType, lookupNormalized, hn2],
        by simp only [filterTypeCamel, lookupRaw, hn2]⟩
    | many ts =>
      have hn2 : findTypeIn ts name = none := hn
      exact ⟨by simp only [filterType, lookupNormalized, hn2],
        by simp only [filterTypeCamel, lookupRaw, hn2]⟩
  · intro pkg e hm he
    obtain ⟨ptypes, pof⟩ := pkg
    have hm2 : proot = some ⟨ptypes, pof⟩ := hm
    subst hm2
    cases ptypes with
    | missing =>
      have he2 : findTypeIn [] name = some e := he
      exact absurd he2 (by simp [findTypeIn, List.find?])
    | one t =>
      have he2 : findTypeIn [t] name = some e := he
      exact ⟨by simp only [filterType, lookupNormalized, he2],
        by simp only [filterTypeCamel, lookupRaw, he2]⟩
    | many ts =>
      have he2 : findTypeIn ts name = some e := he
      exact ⟨by simp only [filterType, lookupNormalized, he2],
        by simp only [filterTypeCamel, lookupRaw, he2]⟩

/-- Witness for the amended claim C8 at a manifest whose `Flow` entry stores a
    scalar member. -/
theorem filterType_lookup_amended_witness :
    filterType ⟨some ⟨TypesField.one ⟨"Flow", MVal.scalar "A"⟩, []⟩, []⟩ "Flow"
      = ⟨"Flow", mvalNormalize (MVal.scalar "A")⟩ ∧
    filterTypeCamel ⟨some ⟨TypesField.one ⟨"Flow", MVal.scalar "A"⟩, []⟩, []⟩ "Flow"
      = ⟨"Flow", MVal.scalar "A"⟩ :=
  (filterType_lookup_amended ⟨some ⟨TypesField.one ⟨"Flow", MVal.scalar "A"⟩, []⟩, []⟩
    "Flow").2.2.2.1 ⟨TypesField.one ⟨"Flow", MVal.scalar "A"⟩, []⟩
    ⟨"Flow", MVal.scalar "A"⟩ rfl (by decide)

/-- Claim C9 (corrected): on a document with no `Package` root the update
    fails with a plain `TypeError` — no `MalformedManifestError` class exists
    in the source. -/
theorem updateManifest_error_class_counterexample :
    updateManifest ⟨none, []⟩ ["a"] "T" ≠ Except.error JsError.malformedManifestError ∧
    updateManifest ⟨none, []⟩ ["a"] "T" = Except.error typeErrorTypesOfUndefined := by
  refine ⟨by decide, rfl⟩

/-- Claim C9 (amended): for every document lacking a `Package` root the update
    operation does fail before anything is written — the `TypeError` from
    reading `.types` of `undefined` aborts the function ahead of its single
    trailing `writeFile` call — but the failure is a generic `TypeError`, not
    the spec's `MalformedManifestError`. -/
theorem updateManifest_fails_before_write (m : Manifest) (members : List String) (t : String)
    (h : m.packageRoot = none) :
    updateManifest m members t = Except.error typeErrorTypesOfUndefined ∧
    updateManifest m members t ≠ Except.error JsError.malformedManifestError ∧
    updateManifestWrites m members t = [] := by
  have herr : updateManifest m members t = Except.error typeErrorTypesOfUndefined := by
    simp only [updateManifest, h]
  refine ⟨herr, ?_, ?_⟩
  · rw [herr]
    intro hc
    injection hc with hc2
    exact JsError.noConfusion hc2
  · simp only [updateManifestWrites, herr]

/-- Witness for the amended claim C9 at a rootless document. -/
theorem updateManifest_fails_before_write_witness :
    updateManifest ⟨none, [("Other", "x")]⟩ ["a"] "Flow"
      = Except.error typeErrorTypesOfUndefined ∧
    updateManifest ⟨none, [("Other", "x")]⟩ ["a"] "Flow"
      ≠ Except.error JsError.malformedManifestError ∧
    updateManifestWrites ⟨none, [("Other", "x")]⟩ ["a"] "Flow" = [] :=
  updateManifest_fails_before_write ⟨none, [("Other", "x")]⟩ ["a"] "Flow" rfl

/-- Claim C10 (corrected): the two `updateManifest` implementations disagree
    when the `Package` root has no `types` field: flow-delete.js defaults it
    to `[]` and appends, flowDelete.js throws. -/
theorem updateManifest_variants_differ_counterexample :
    updateManifest ⟨some ⟨TypesField.missing, []⟩, []⟩ ["a"] "T"
      ≠ updateManifestCamel ⟨some ⟨TypesField.missing, []⟩, []⟩ ["a"] "T" ∧
    updateManifest ⟨some ⟨TypesField.missing, []⟩, []⟩ ["a"] "T"
      = Except.ok ⟨some ⟨TypesField.many [⟨"T", MVal.list ["a"]⟩], []⟩, []⟩ ∧
    updateManifestCamel ⟨some ⟨TypesField.missing, []⟩, []⟩ ["a"] "T"
      = Except.error typeErrorNameOfUndefined := by
  refine ⟨by decide, by decide, rfl⟩

/-- Claim C10 (amended): the two `updateManifest` implementations produce the
    same result exactly on the manifests whose `Package` root is absent (both
    throw the same `TypeError`) or whose `types` field is present; they differ
    precisely when a `Package` root exists without a `types` field. -/
theorem updateManifest_variants_agree_iff (m : Manifest) (members : List String) (t : String) :
    updateManifest m members t = updateManifestCamel m members t ↔
      ¬ ∃ pkg, m.packageRoot = some pkg ∧ pkg.types = TypesField.missing := by
  obtain ⟨proot, otop⟩ := m
  cases proot with
  | none =>
    constructor
    · rintro - ⟨pkg, hpkg, -⟩
      exact Option.noConfusion hpkg
    · intro _
      rfl
  | some pkg =>
    obtain ⟨ptypes, pof⟩ := pkg
    cases ptypes with
    | missing =>
      constructor
      · intro heq
        exfalso
        have h1 : updateManifest ⟨some ⟨TypesField.missing, pof⟩, otop⟩ members t
            = Except.ok ⟨some ⟨TypesField.many [⟨t, MVal.list members⟩], pof⟩, otop⟩ := rfl
        have h2 : updateManifestCamel ⟨some ⟨TypesField.missing, pof⟩, otop⟩ members t
            = Except.error typeErrorNameOfUndefined := rfl
        rw [h1, h2] at heq
        exact Except.noConfusion heq
      · intro hno
        exact absurd ⟨⟨TypesField.missing, pof⟩, rfl, rfl⟩ hno
    | one t1 =>
      constructor
      · rintro - ⟨pkg2, hpkg2, ht2⟩
        injection hpkg2 with h3
        rw [← h3] at ht2
        exact TypesField.noConfusion ht2
      · intro _
        rfl
    | many ts =>
      constructor
      · rintro - ⟨pkg2, hpkg2, ht2⟩
        injection hpkg2 with h3
        rw [← h3] at ht2
        exact TypesField.noConfusion ht2
      · intro _
        rfl

/-- Claim C7 (corrected): applying `updateManifest` twice is not the same as
    applying it once — on a manifest with no `T` entry and duplicated
    `newMembers`, the first run appends `["a", "a"]` and the second run
    dedupes it to `["a"]`. -/
theorem updateManifest_idempotence_counterexample :
    (updateManifest ⟨some ⟨TypesField.many [], []⟩, []⟩ ["a", "a"] "T").bind
      (fun m1 => updateManifest m1 ["a", "a"] "T")
    ≠ updateManifest ⟨some ⟨TypesField.many [], []⟩, []⟩ ["a", "a"] "T" := by decide
